import Mathlib

/-!
Shallow embedding of `tools/validate-skill.js` (class `SkillValidator`).

Document text is modelled as `List Char`; diagnostic messages as `List Char`
built from the literal message strings of the source.  The validator's two
instance arrays `this.errors` / `this.warnings` become the `VState` record,
and every `validateX` method becomes a `VState → VState` transformer that
appends its findings, mirroring the `push` calls of the source in order.
The filesystem is a parameter: a Boolean existence predicate for the
referenced paths, plus Booleans for the skill directory and `SKILL.md`.
-/

namespace SkillValidator

/-- JavaScript `\s` character class (WhiteSpace ∪ LineTerminator), used by
`trim`, `split(/[,\s]+/)` and the `\s*` / `[^...\s]` parts of the regexes. -/
def isJsSpace (c : Char) : Bool :=
  decide (c = ' ' ∨ c = '\t' ∨ c = '\n' ∨ c = '\r' ∨
    c.toNat = 11 ∨ c.toNat = 12 ∨ c.toNat = 0xa0 ∨ c.toNat = 0x1680 ∨
    (0x2000 ≤ c.toNat ∧ c.toNat ≤ 0x200a) ∨ c.toNat = 0x2028 ∨ c.toNat = 0x2029 ∨
    c.toNat = 0x202f ∨ c.toNat = 0x205f ∨ c.toNat = 0x3000 ∨ c.toNat = 0xfeff)

/-- JavaScript line terminators: what `.` refuses to match and where `^`/`$`
anchor in multiline mode (LF, CR, U+2028, U+2029). -/
def lineTerm (c : Char) : Bool :=
  decide (c = '\n' ∨ c = '\r' ∨ c.toNat = 0x2028 ∨ c.toNat = 0x2029)

/-- The backtick character, written by code point. -/
def backtick : Char := Char.ofNat 96

/-- JavaScript `\w` character class `[A-Za-z0-9_]`, for the `\b` boundaries. -/
def isWordChar (c : Char) : Bool :=
  decide (('A' ≤ c ∧ c ≤ 'Z') ∨ ('a' ≤ c ∧ c ≤ 'z') ∨ ('0' ≤ c ∧ c ≤ '9') ∨ c = '_')

/-- ASCII lowering, the per-character effect of the `i` regex flag on the
ASCII-only patterns the source uses. -/
def lowerAscii (c : Char) : Char :=
  if 'A' ≤ c ∧ c ≤ 'Z' then Char.ofNat (c.toNat + 32) else c

/-- Case-insensitive prefix test for an (already lowercase) literal pattern. -/
def ciIsPref : List Char → List Char → Bool
  | [], _ => true
  | _ :: _, [] => false
  | p :: ps, c :: cs => (lowerAscii c = lowerAscii p : Bool) && ciIsPref ps cs

/-- Case-insensitive substring test: `pat` matches somewhere in the text.
Embeds `/pat/i.test(s)` for the plain-literal patterns of the source. -/
def ciContains (pat : List Char) : List Char → Bool
  | [] => ciIsPref pat []
  | c :: r => ciIsPref pat (c :: r) || ciContains pat r

/-- JavaScript `String.prototype.trim`. -/
def trimChars (s : List Char) : List Char :=
  ((s.dropWhile isJsSpace).reverse.dropWhile isJsSpace).reverse

/-- The two diagnostic arrays of the `SkillValidator` instance. -/
structure VState where
  errors : List (List Char)
  warnings : List (List Char)
deriving DecidableEq, Repr

/-- Fresh validator state (`this.errors = []; this.warnings = []`). -/
def e0 : VState := ⟨[], []⟩

/-- `this.errors.push(m)` -/
def pushE (st : VState) (m : List Char) : VState :=
  ⟨st.errors ++ [m], st.warnings⟩

/-- `this.warnings.push(m)` -/
def pushW (st : VState) (m : List Char) : VState :=
  ⟨st.errors, st.warnings ++ [m]⟩

/-- `if (cond) this.errors.push(m)` -/
def addE (p : Prop) [Decidable p] (m : List Char) (st : VState) : VState :=
  if p then pushE st m else st

/-- `if (cond) this.warnings.push(m)` -/
def addW (p : Prop) [Decidable p] (m : List Char) (st : VState) : VState :=
  if p then pushW st m else st

/-! ### validateName -/

def nameTooLongMsg (n : Nat) : List Char :=
  "name is too long: ".data ++ (Nat.repr n).data ++ " chars (max 64)".data

def nameFormatMsg : List Char :=
  "name must contain only lowercase letters, numbers, and hyphens".data

def nameReservedMsg : List Char :=
  "name cannot contain reserved words: \"anthropic\", \"claude\"".data

def nameXmlMsg : List Char := "name cannot contain XML tags".data

def nameVagueMsg (name : List Char) : List Char :=
  "name \"".data ++ name ++ "\" is too vague, consider a more specific name".data

/-- One character of the class `[a-z0-9-]`. -/
def nameCharOk (c : Char) : Bool :=
  decide (('a' ≤ c ∧ c ≤ 'z') ∨ ('0' ≤ c ∧ c ≤ '9') ∨ c = '-')

/-- `/^[a-z0-9-]+$/.test(name)` -/
def nameFormatOk (name : List Char) : Bool :=
  decide (name ≠ []) && name.all nameCharOk

/-- `/anthropic|claude/i.test(s)` -/
def hasReserved (s : List Char) : Bool :=
  ciContains "anthropic".data s || ciContains "claude".data s

/-- `/<|>/.test(s)` -/
def hasAngle (s : List Char) : Bool :=
  s.any (fun c => decide (c = '<' ∨ c = '>'))

def vagueNames : List (List Char) :=
  ["helper".data, "utils".data, "tools".data, "skill".data]

/-- `SkillValidator.validateName` -/
def validateName (name : List Char) (st : VState) : VState :=
  addW (name ∈ vagueNames) (nameVagueMsg name)
    (addE (hasAngle name = true) nameXmlMsg
      (addE (hasReserved name = true) nameReservedMsg
        (addE (nameFormatOk name = false) nameFormatMsg
          (addE (64 < name.length) (nameTooLongMsg name.length) st))))

/-! ### validateDescription -/

def descTooLongMsg (n : Nat) : List Char :=
  "description is too long: ".data ++ (Nat.repr n).data ++ " chars (max 1024)".data

def descEmptyMsg : List Char := "description cannot be empty".data

def descXmlMsg : List Char := "description cannot contain XML tags".data

def descPersonMsg : List Char :=
  "description should use third person, not first or second person".data

def descUseWhenMsg : List Char :=
  "description should include \"Use when...\" to specify triggers".data

def pronounWords : List (List Char) :=
  ["i".data, "me".data, "my".data, "you".data, "your".data]

/-- `\b` at a position whose neighbouring character (if any) is given. -/
def boundaryOk : Option Char → Bool
  | none => true
  | some c => !(isWordChar c)

/-- Scan for a case-insensitive whole-word occurrence of `w`; `prev` is the
character just before the current position (`none` at the text start). -/
def wordHitFrom (w : List Char) : Option Char → List Char → Bool
  | _, [] => false
  | prev, c :: r =>
    (boundaryOk prev && ciIsPref w (c :: r) &&
      boundaryOk ((c :: r).drop w.length).head?) || wordHitFrom w (some c) r

/-- `/\b(I|me|my|you|your)\b/i.test(s)`-style whole-word test for one word. -/
def wordHit (w : List Char) (s : List Char) : Bool := wordHitFrom w none s

def hasPronoun (s : List Char) : Bool := pronounWords.any (fun w => wordHit w s)

/-- `SkillValidator.validateDescription` -/
def validateDescription (desc : List Char) (st : VState) : VState :=
  addW (ciContains "use when".data desc = false) descUseWhenMsg
    (addW (hasPronoun desc = true) descPersonMsg
      (addE (hasAngle desc = true) descXmlMsg
        (addE ((trimChars desc).length = 0) descEmptyMsg
          (addE (1024 < desc.length) (descTooLongMsg desc.length) st))))

/-! ### validateAllowedTools -/

def validTools : List (List Char) :=
  ["Read".data, "Write".data, "Edit".data, "Glob".data, "Grep".data,
    "Bash".data, "Task".data, "WebFetch".data, "WebSearch".data]

def unknownToolMsg (t : List Char) : List Char :=
  "Unknown tool in allowed-tools: ".data ++ t

/-- A separator character of `split(/[,\s]+/)`. -/
def toolSep (c : Char) : Bool := decide (c = ',') || isJsSpace c

/-- `s.split(/[,\s]+/).filter(t => t.length > 0)`: the maximal runs of
non-separator characters, in order.  `acc` holds the current (reversed) run. -/
def wordsByAux (p : Char → Bool) : List Char → List Char → List (List Char)
  | [], acc => if acc = [] then [] else [acc.reverse]
  | c :: r, acc =>
    if p c then (if acc = [] then wordsByAux p r [] else acc.reverse :: wordsByAux p r [])
    else wordsByAux p r (c :: acc)

def splitToolList (s : List Char) : List (List Char) := wordsByAux toolSep s []

/-- `SkillValidator.validateAllowedTools` -/
def validateAllowedTools (tools : List Char) (st : VState) : VState :=
  (splitToolList tools).foldl
    (fun acc t => addW (t ∉ validTools) (unknownToolMsg t) acc) st

/-! ### Header extraction: the regex of `validateFrontmatter` -/

/-- First index of the text at which `pat` occurs as a prefix of the
remaining suffix (leftmost match position of a literal pattern). -/
def findSeq (pat : List Char) : List Char → Option Nat
  | [] => none
  | c :: r => if pat.isPrefixOf (c :: r) then some 0 else (findSeq pat r).map (· + 1)

/-- The anchored opening delimiter of the frontmatter regex, with its
newline. -/
def delimOpen : List Char := '-' :: '-' :: '-' :: '\n' :: []

/-- The closing part of the frontmatter regex: a newline followed by three
hyphens (not required to be a whole line). -/
def delimClose : List Char := '\n' :: '-' :: '-' :: '-' :: []

/-- The frontmatter match, returning the captured header block.  The regex
is anchored at the start of the string, and the lazy middle group makes the
capture end at the first later occurrence of the closing part. -/
def fmSplit (content : List Char) : Option (List Char) :=
  if delimOpen.isPrefixOf content then
    (findSeq delimClose (content.drop 4)).map (fun i => (content.drop 4).take i)
  else none

/-! ### Frontmatter field extraction: the per-key multiline regexes -/

/-- Drop through the first line terminator: move to the next start-of-line
anchor position of a multiline regex scan. -/
def dropLine : List Char → List Char
  | [] => []
  | c :: r => if lineTerm c then r else dropLine r

/-- Given the text right after a matched `key:` literal, the capture of the
whitespace-run-then-rest-of-line tail of the field regex.  The greedy
whitespace run stops at the first non-whitespace character, from which the
capture takes the rest of that line; when whitespace runs to the very end
of the text the engine backtracks, leaving the last non-line-terminator
whitespace character (if any) as the one-character capture. -/
def tryAfterKey (rest : List Char) : Option (List Char) :=
  match rest.dropWhile isJsSpace with
  | c :: r => some ((c :: r).takeWhile (fun x => !(lineTerm x)))
  | [] =>
    match rest.reverse.find? (fun x => !(lineTerm x)) with
    | some w => some [w]
    | none => none

theorem dropLine_length_le : ∀ l : List Char, (dropLine l).length ≤ l.length := by
  intro l
  induction l with
  | nil => simp [dropLine]
  | cons c r ih =>
    rw [dropLine]
    split
    · simp
    · exact Nat.le_trans ih (by simp)

theorem dropLine_length_lt (c : Char) (r : List Char) :
    (dropLine (c :: r)).length < (c :: r).length := by
  rw [dropLine]
  split
  · simp
  · exact Nat.lt_succ_of_le (dropLine_length_le r)

/-- The field-extraction regex of `validateFrontmatter` for one key: try
each start-of-line position in order; at a line starting with the `key:`
literal, match the tail right after the key. -/
def matchField (key : List Char) : List Char → Option (List Char)
  | [] => none
  | c :: r =>
    if key.isPrefixOf (c :: r) then
      match tryAfterKey ((c :: r).drop key.length) with
      | some cap => some cap
      | none => matchField key (dropLine (c :: r))
    else matchField key (dropLine (c :: r))
termination_by l => l.length
decreasing_by
  all_goals exact dropLine_length_lt c r

def fmMissingMsg : List Char := "YAML frontmatter is required but not found".data

def nameReqMsg : List Char := "name field is required in frontmatter".data

def descReqMsg : List Char := "description field is required in frontmatter".data

def nameKey : List Char := "name:".data

def descKey : List Char := "description:".data

def toolsKey : List Char := "allowed-tools:".data

/-- `SkillValidator.validateFrontmatter` -/
def validateFrontmatter (content : List Char) (st : VState) : VState :=
  match fmSplit content with
  | none => pushE st fmMissingMsg
  | some fm =>
    let st1 := match matchField nameKey fm with
      | none => pushE st nameReqMsg
      | some v => validateName (trimChars v) st
    let st2 := match matchField descKey fm with
      | none => pushE st1 descReqMsg
      | some v => validateDescription (trimChars v) st1
    match matchField toolsKey fm with
      | none => st2
      | some v => validateAllowedTools (trimChars v) st2

/-! ### validateFileStructure -/

/-- Split on the literal newline character, keeping empty pieces. -/
def splitNL : List Char → List (List Char)
  | [] => [[]]
  | c :: r =>
    if c = '\n' then [] :: splitNL r
    else
      match splitNL r with
      | l :: ls => (c :: l) :: ls
      | [] => [[c]]

/-- A line consisting of the three-hyphen delimiter only. -/
def delimLine : List Char := '-' :: '-' :: '-' :: []

def sizeMsg (n : Nat) : List Char :=
  "SKILL.md is ".data ++ (Nat.repr n).data ++
    " lines (recommended: <500). Consider using progressive disclosure.".data

/-- `SkillValidator.validateFileStructure`.  The source calls
`lines.findIndex(l => l === '---', 1)`: `Array.prototype.findIndex` takes a
callback and a `thisArg`, so the `1` is a discarded `thisArg` and the
search starts at index 0; a missing delimiter yields `-1`, making the
subsequent slice keep every line. -/
def bodyLineCount (content : List Char) : Nat :=
  match (splitNL content).findIdx? (fun l => l = delimLine) with
  | some i => ((splitNL content).drop (i + 1)).length
  | none => (splitNL content).length

def validateFileStructure (content : List Char) (st : VState) : VState :=
  addW (500 < bodyLineCount content) (sizeMsg (bodyLineCount content)) st

/-! ### validateContent -/

/-- Follower class of the backslash regex: its negated character class
consists of the literal letters `n`, `r`, `t`, an (escaped) backslash, and
the whitespace class. -/
def bsFollower (c : Char) : Bool :=
  !(decide (c = 'n' ∨ c = 'r' ∨ c = 't' ∨ c = '\\') || isJsSpace c)

/-- The backslash-path test: some character other than a backtick,
immediately followed by a backslash, immediately followed by a character of
the follower class. -/
def scanBS : List Char → Bool
  | a :: b :: c :: r =>
    (decide (b = '\\') && decide (a ≠ backtick) && bsFollower c) || scanBS (b :: c :: r)
  | _ => false

/-- First match of the snippet regex (a backslash then one or more
non-line-terminator characters): from the first backslash that is followed
by at least one such character, the backslash and that run. -/
def bsSnippet : List Char → Option (List Char)
  | [] => none
  | a :: r =>
    if a = '\\' then
      match r with
      | c :: _ =>
        if lineTerm c then bsSnippet r
        else some (a :: r.takeWhile (fun x => !(lineTerm x)))
      | [] => none
    else bsSnippet r

def bsMsg (content : List Char) : List Char :=
  "Windows-style paths found (use forward slashes): ".data ++
    (match bsSnippet content with
     | some s => s
     | none => [])

def timeMsg : List Char :=
  "Time-sensitive information detected. Consider using \"Old Patterns\" section instead.".data

/-- The literal heads of the four time-anchoring regexes. -/
def timePats : List (List Char) :=
  ["before ".data, "after ".data, "until ".data, "as of ".data]

/-- The first four characters exist and are decimal digits. -/
def fourDigits : List Char → Bool
  | a :: b :: c :: d :: _ => a.isDigit && b.isDigit && c.isDigit && d.isDigit
  | _ => false

/-- A time-anchoring pattern matches at the head of `t`: its literal word
(case-insensitively) followed by four digits. -/
def timeHitAt (p t : List Char) : Bool := ciIsPref p t && fourDigits (t.drop p.length)

/-- A time-anchoring pattern matches somewhere in the text. -/
def scanTP (p : List Char) : List Char → Bool
  | [] => false
  | c :: r => timeHitAt p (c :: r) || scanTP p r

/-- `SkillValidator.validateContent` -/
def validateContent (content : List Char) (st : VState) : VState :=
  let st1 := addE (scanBS content = true) (bsMsg content) st
  timePats.foldl (fun acc p => addW (scanTP p content = true) timeMsg acc) st1

/-! ### validateReferences -/

/-- Attempt the markdown-link regex at the head of the text; on success
return the captured target and the text after the match.  Both character
classes exclude their own closing bracket, so the greedy runs are the
maximal ones and no further backtracking can succeed. -/
def tryLink : List Char → Option (List Char × List Char)
  | '[' :: rest =>
    (match rest.dropWhile (fun x => decide (x ≠ ']')) with
      | ']' :: '(' :: rest2 =>
        (match rest2.dropWhile (fun x => decide (x ≠ ')')) with
          | ')' :: rest4 =>
            if rest.takeWhile (fun x => decide (x ≠ ']')) = [] ∨
                rest2.takeWhile (fun x => decide (x ≠ ')')) = [] then none
            else some (rest2.takeWhile (fun x => decide (x ≠ ')')), rest4)
          | _ => none)
      | _ => none)
  | _ => none

theorem length_lt_of_dropWhile_cons {p : Char → Bool} {l r : List Char} {a : Char}
    (h : l.dropWhile p = a :: r) : r.length < l.length := by
  have hle := (List.dropWhile_suffix (l := l) p).length_le
  rw [h] at hle
  simp only [List.length_cons] at hle
  omega

theorem tryLink_some_length {l t r : List Char} (h : tryLink l = some (t, r)) :
    r.length < l.length := by
  rw [tryLink.eq_def] at h
  split at h
  · split at h
    · split at h
      · split at h
        · exact absurd h (by simp)
        · rename_i rest2 hdrop1 x4 rest4 hdrop2 hne
          have a1 := length_lt_of_dropWhile_cons hdrop1
          have a2 := length_lt_of_dropWhile_cons hdrop2
          simp only [Option.some.injEq, Prod.mk.injEq] at h
          obtain ⟨-, hr⟩ := h
          subst hr
          simp only [List.length_cons] at a1 ⊢
          omega
      · exact absurd h (by simp)
    · exact absurd h (by simp)
  · exact absurd h (by simp)

/-- The link-collection loop of `validateReferences`, with an explicit
step budget: collect every link target, resuming after each match and
advancing one character past a failed attempt.  Each step consumes one
unit of budget and at least one character of text. -/
def scanLinksGo : Nat → List Char → List (List Char)
  | 0, _ => []
  | _ + 1, [] => []
  | n + 1, c :: rest =>
    match tryLink (c :: rest) with
    | some (tgt, rest4) => tgt :: scanLinksGo n rest4
    | none => scanLinksGo n rest

/-- The link-collection loop of `validateReferences`: the text's length
bounds the number of scanning steps. -/
def scanLinks (l : List Char) : List (List Char) := scanLinksGo l.length l

theorem scanLinksGo_fuel :
    ∀ (n : Nat) (l : List Char), l.length ≤ n → scanLinksGo n l = scanLinksGo l.length l := by
  intro n
  induction n using Nat.strong_induction_on with
  | _ n ih =>
    intro l hl
    match n, l with
    | 0, l =>
      interval_cases hl2 : l.length
      · rfl
    | n + 1, [] => rfl
    | n + 1, c :: rest =>
      simp only [List.length_cons] at hl
      rw [scanLinksGo]
      rw [show (c :: rest).length = rest.length + 1 from rfl, scanLinksGo]
      rcases htl : tryLink (c :: rest) with _ | ⟨tgt, rest4⟩
      · simp only []
        have h1 : scanLinksGo n rest = scanLinksGo rest.length rest :=
          ih n (Nat.lt_succ_self n) rest (by omega)
        have h2 : scanLinksGo rest.length rest = scanLinksGo rest.length rest := rfl
        rw [h1]
      · simp only []
        have hlen := tryLink_some_length htl
        simp only [List.length_cons] at hlen
        have h1 : scanLinksGo n rest4 = scanLinksGo rest4.length rest4 :=
          ih n (Nat.lt_succ_self n) rest4 (by omega)
        have h2 : scanLinksGo rest.length rest4 = scanLinksGo rest4.length rest4 :=
          ih rest.length (by omega) rest4 (by omega)
        rw [h1, h2]

theorem scanLinks_cons_none {c : Char} {rest : List Char}
    (h : tryLink (c :: rest) = none) : scanLinks (c :: rest) = scanLinks rest := by
  unfold scanLinks
  rw [show (c :: rest).length = rest.length + 1 from rfl, scanLinksGo, h]

theorem scanLinks_cons_some {c : Char} {rest tgt rest4 : List Char}
    (h : tryLink (c :: rest) = some (tgt, rest4)) :
    scanLinks (c :: rest) = tgt :: scanLinks rest4 := by
  unfold scanLinks
  rw [show (c :: rest).length = rest.length + 1 from rfl, scanLinksGo, h]
  have hlen := tryLink_some_length h
  simp only [List.length_cons] at hlen
  show tgt :: scanLinksGo rest.length rest4 = tgt :: scanLinksGo rest4.length rest4
  rw [scanLinksGo_fuel rest.length rest4 (by omega)]

theorem scanLinks_nil : scanLinks [] = [] := rfl

/-- Targets skipped by the resolver: external URLs and anchors. -/
def skipRef (t : List Char) : Bool :=
  "http://".data.isPrefixOf t || "https://".data.isPrefixOf t || "#".data.isPrefixOf t

def refMsg (r : List Char) : List Char :=
  "Referenced file does not exist: ".data ++ r

/-- `SkillValidator.validateReferences`; `fsEx` models the filesystem
existence check applied to a target resolved against the package root. -/
def validateReferences (content : List Char) (fsEx : List Char → Bool) (st : VState) : VState :=
  let references := (scanLinks content).filter (fun t => !(skipRef t))
  references.foldl (fun acc ref => addE (fsEx ref = false) (refMsg ref) acc) st

/-! ### validate, report and exit status -/

/-- The body of `SkillValidator.validate` once `SKILL.md` has been read:
the four component validators run unconditionally, in source order. -/
def runDoc (content : List Char) (fsEx : List Char → Bool) (st : VState) : VState :=
  validateReferences content fsEx
    (validateContent content
      (validateFileStructure content
        (validateFrontmatter content st)))

def dirMissingMsg (skillPath : List Char) : List Char :=
  "Skill directory does not exist: ".data ++ skillPath

def mdMissingMsg : List Char := "SKILL.md file is required but not found".data

/-- `SkillValidator.validate`: the diagnostic state at the `report()` call.
`dirE` and `mdE` model the existence of the skill directory and of
`SKILL.md`; `content` is the file's text when both exist. -/
def runValidate (skillPath : List Char) (dirE mdE : Bool) (content : List Char)
    (fsEx : List Char → Bool) : VState :=
  if dirE = false then pushE e0 (dirMissingMsg skillPath)
  else if mdE = false then pushE e0 mdMissingMsg
  else runDoc content fsEx e0

/-- The Boolean returned by `SkillValidator.report`. -/
def report (st : VState) : Bool :=
  if st.errors.length = 0 ∧ st.warnings.length = 0 then true
  else if 0 < st.errors.length then false
  else true

/-- The `require.main` block: exit `1` on a missing argument, otherwise map
the validator's Boolean to an exit status. -/
def exitCode (arg : Option (List Char)) (dirE mdE : Bool) (content : List Char)
    (fsEx : List Char → Bool) : Nat :=
  match arg with
  | none => 1
  | some skillPath =>
    if report (runValidate skillPath dirE mdE content fsEx) then 0 else 1

/-! ### Accumulation structure of the validators

Every validator only appends to the two diagnostic arrays; these lemmas
make that explicit and give closed forms for the appended findings. -/

/-- `f` only appends to the diagnostic arrays, and what it appends does not
depend on what is already there. -/
def Appends (f : VState → VState) : Prop :=
  ∃ E W, ∀ st : VState, f st = ⟨st.errors ++ E, st.warnings ++ W⟩

theorem appends_id : Appends (fun st => st) :=
  ⟨[], [], fun st => by simp⟩

theorem appends_pushE (m : List Char) : Appends (fun st => pushE st m) :=
  ⟨[m], [], fun st => by simp [pushE]⟩

theorem appends_pushW (m : List Char) : Appends (fun st => pushW st m) :=
  ⟨[], [m], fun st => by simp [pushW]⟩

theorem appends_addE (p : Prop) [Decidable p] (m : List Char) : Appends (addE p m) := by
  refine ⟨if p then [m] else [], [], fun st => ?_⟩
  by_cases hp : p <;> simp [addE, pushE, hp]

theorem appends_addW (p : Prop) [Decidable p] (m : List Char) : Appends (addW p m) := by
  refine ⟨[], if p then [m] else [], fun st => ?_⟩
  by_cases hp : p <;> simp [addW, pushW, hp]

theorem appends_comp {f g : VState → VState} (hf : Appends f) (hg : Appends g) :
    Appends (fun st => g (f st)) := by
  obtain ⟨E, W, hf⟩ := hf
  obtain ⟨E', W', hg⟩ := hg
  refine ⟨E ++ E', W ++ W', fun st => ?_⟩
  show g (f st) = _
  rw [hf st, hg]
  simp

theorem appends_foldl {α : Type} {step : VState → α → VState}
    (hstep : ∀ x, Appends (fun st => step st x)) (l : List α) :
    Appends (fun st => l.foldl step st) := by
  induction l with
  | nil => exact appends_id
  | cons x xs ih =>
    have := appends_comp (hstep x) ih
    simpa [List.foldl_cons] using this

/-- Decomposition through an appending validator: the result is the input
diagnostics followed by the validator's own findings (its output on the
fresh state). -/
theorem appends_decomp {f : VState → VState} (h : Appends f) (st : VState) :
    f st = ⟨st.errors ++ (f e0).errors, st.warnings ++ (f e0).warnings⟩ := by
  obtain ⟨E, W, hf⟩ := h
  have h0 := hf e0
  rw [hf st, h0]
  simp [e0]

/-! ### Closed forms for the findings of the leaf validators -/

theorem foldl_addE_char {α : Type} (cond : α → Prop) [DecidablePred cond]
    (msg : α → List Char) (l : List α) (st : VState) :
    l.foldl (fun acc x => addE (cond x) (msg x) acc) st =
      ⟨st.errors ++ (l.filter (fun x => decide (cond x))).map msg, st.warnings⟩ := by
  induction l generalizing st with
  | nil => simp
  | cons x xs ih =>
    rw [List.foldl_cons, ih]
    by_cases hx : cond x <;> simp [addE, pushE, hx]

theorem foldl_addW_char {α : Type} (cond : α → Prop) [DecidablePred cond]
    (msg : α → List Char) (l : List α) (st : VState) :
    l.foldl (fun acc x => addW (cond x) (msg x) acc) st =
      ⟨st.errors, st.warnings ++ (l.filter (fun x => decide (cond x))).map msg⟩ := by
  induction l generalizing st with
  | nil => simp
  | cons x xs ih =>
    rw [List.foldl_cons, ih]
    by_cases hx : cond x <;> simp [addW, pushW, hx]


theorem appends_validateName (name : List Char) : Appends (validateName name) := by
  unfold validateName
  have h1 := appends_addE (64 < name.length) (nameTooLongMsg name.length)
  have h2 := appends_addE (nameFormatOk name = false) nameFormatMsg
  have h3 := appends_addE (hasReserved name = true) nameReservedMsg
  have h4 := appends_addE (hasAngle name = true) nameXmlMsg
  have h5 := appends_addW (name ∈ vagueNames) (nameVagueMsg name)
  exact appends_comp (appends_comp (appends_comp (appends_comp h1 h2) h3) h4) h5

theorem appends_validateDescription (desc : List Char) : Appends (validateDescription desc) := by
  unfold validateDescription
  have h1 := appends_addE (1024 < desc.length) (descTooLongMsg desc.length)
  have h2 := appends_addE ((trimChars desc).length = 0) descEmptyMsg
  have h3 := appends_addE (hasAngle desc = true) descXmlMsg
  have h4 := appends_addW (hasPronoun desc = true) descPersonMsg
  have h5 := appends_addW (ciContains "use when".data desc = false) descUseWhenMsg
  exact appends_comp (appends_comp (appends_comp (appends_comp h1 h2) h3) h4) h5

theorem appends_validateAllowedTools (tools : List Char) :
    Appends (validateAllowedTools tools) :=
  appends_foldl (fun t => appends_addW (t ∉ validTools) (unknownToolMsg t)) _

theorem appends_validateFrontmatter (content : List Char) :
    Appends (validateFrontmatter content) := by
  unfold validateFrontmatter
  rcases fmSplit content with _ | fm
  · exact appends_pushE fmMissingMsg
  · simp only []
    have g1 : Appends (fun st =>
        match matchField nameKey fm with
        | none => pushE st nameReqMsg
        | some v => validateName (trimChars v) st) := by
      rcases matchField nameKey fm with _ | v
      · exact appends_pushE nameReqMsg
      · exact appends_validateName (trimChars v)
    have g2 : Appends (fun st =>
        match matchField descKey fm with
        | none => pushE st descReqMsg
        | some v => validateDescription (trimChars v) st) := by
      rcases matchField descKey fm with _ | v
      · exact appends_pushE descReqMsg
      · exact appends_validateDescription (trimChars v)
    have g3 : Appends (fun st =>
        match matchField toolsKey fm with
        | none => st
        | some v => validateAllowedTools (trimChars v) st) := by
      rcases matchField toolsKey fm with _ | v
      · exact appends_id
      · exact appends_validateAllowedTools (trimChars v)
    exact appends_comp (appends_comp g1 g2) g3

theorem appends_validateFileStructure (content : List Char) :
    Appends (validateFileStructure content) :=
  appends_addW _ _

theorem appends_validateContent (content : List Char) :
    Appends (validateContent content) := by
  refine ⟨if scanBS content = true then [bsMsg content] else [],
    (timePats.filter (fun p => scanTP p content)).map (fun _ => timeMsg), fun st => ?_⟩
  show validateContent content st = _
  unfold validateContent
  rw [foldl_addW_char (fun p => scanTP p content = true) (fun _ => timeMsg) timePats]
  by_cases hb : scanBS content = true <;> simp [addE, pushE, hb]

theorem appends_validateReferences (content : List Char) (fsEx : List Char → Bool) :
    Appends (validateReferences content fsEx) :=
  appends_foldl (fun ref => appends_addE (fsEx ref = false) (refMsg ref)) _

theorem validateReferences_char (content : List Char) (fsEx : List Char → Bool) (st : VState) :
    validateReferences content fsEx st =
      ⟨st.errors ++
        ((((scanLinks content).filter (fun t => !(skipRef t))).filter
          (fun r => decide (fsEx r = false))).map refMsg), st.warnings⟩ := by
  unfold validateReferences
  exact foldl_addE_char (fun r => fsEx r = false) refMsg _ st

theorem validateContent_char (content : List Char) (st : VState) :
    validateContent content st =
      ⟨st.errors ++ (if scanBS content = true then [bsMsg content] else []),
        st.warnings ++
          ((timePats.filter (fun p => scanTP p content)).map (fun _ => timeMsg))⟩ := by
  unfold validateContent
  rw [foldl_addW_char (fun p => scanTP p content = true) (fun _ => timeMsg) timePats]
  by_cases hb : scanBS content = true <;> simp [addE, pushE, hb]

theorem validateFileStructure_char (content : List Char) (st : VState) :
    validateFileStructure content st =
      ⟨st.errors, st.warnings ++
        (if 500 < bodyLineCount content then [sizeMsg (bodyLineCount content)] else [])⟩ := by
  unfold validateFileStructure
  by_cases hb : 500 < bodyLineCount content <;> simp [addW, pushW, hb]

/-! ### Shared helper lemmas about the report and the early exits -/

theorem report_eq_true_iff (st : VState) : report st = true ↔ st.errors.length = 0 := by
  unfold report
  by_cases h1 : st.errors.length = 0 ∧ st.warnings.length = 0
  · simp [h1, h1.1]
  · by_cases h2 : 0 < st.errors.length
    · simp only [h1, if_false, h2, if_true]
      constructor
      · intro hfalse
        exact absurd hfalse (by simp)
      · intro hz
        omega
    · have hz : st.errors.length = 0 := by omega
      simp [h1, h2, hz]

theorem runValidate_no_dir (skillPath content : List Char) (mdE : Bool)
    (fsEx : List Char → Bool) :
    runValidate skillPath false mdE content fsEx = ⟨[dirMissingMsg skillPath], []⟩ := by
  simp [runValidate, pushE, e0]

theorem runValidate_no_md (skillPath content : List Char) (fsEx : List Char → Bool) :
    runValidate skillPath true false content fsEx = ⟨[mdMissingMsg], []⟩ := by
  simp [runValidate, pushE, e0]

/-- Claim C1: the overall verdict `passed` is true iff the count of
Error-severity diagnostics is exactly zero, independent of the Warning
count; the process exits with status 0 when passed (with or without
warnings) and with status 1 when one or more Errors were found or on a
usage error (missing argument, missing package directory, missing primary
document). -/
theorem c1_verdict_and_exit (skillPath content : List Char) (dirE mdE : Bool)
    (fsEx : List Char → Bool) :
    (∀ st : VState, report st = true ↔ st.errors.length = 0) ∧
    exitCode none dirE mdE content fsEx = 1 ∧
    (exitCode (some skillPath) dirE mdE content fsEx =
      if (runValidate skillPath dirE mdE content fsEx).errors.length = 0 then 0 else 1) ∧
    (dirE = false → exitCode (some skillPath) dirE mdE content fsEx = 1) ∧
    (dirE = true → mdE = false → exitCode (some skillPath) dirE mdE content fsEx = 1) := by
  have hmap : exitCode (some skillPath) dirE mdE content fsEx =
      if (runValidate skillPath dirE mdE content fsEx).errors.length = 0 then 0 else 1 := by
    by_cases hz : (runValidate skillPath dirE mdE content fsEx).errors.length = 0
    · simp [exitCode, (report_eq_true_iff _).mpr hz, hz]
    · have hf : report (runValidate skillPath dirE mdE content fsEx) = false := by
        cases hrep : report (runValidate skillPath dirE mdE content fsEx) with
        | false => rfl
        | true => exact absurd ((report_eq_true_iff _).mp hrep) hz
      simp [exitCode, hf, hz]
  refine ⟨report_eq_true_iff, rfl, hmap, ?_, ?_⟩
  · intro hd
    subst hd
    rw [hmap, runValidate_no_dir]
    simp
  · intro hd hm
    subst hd
    subst hm
    rw [hmap, runValidate_no_md]
    simp

theorem c1_verdict_and_exit_witness :
    exitCode (some ('p' :: [])) false true [] (fun _ => false) = 1 ∧
    exitCode (some ('p' :: [])) true false [] (fun _ => false) = 1 ∧
    (report e0 = true ↔ e0.errors.length = 0) := by
  have h := c1_verdict_and_exit ('p' :: []) [] false true (fun _ => false)
  have h2 := c1_verdict_and_exit ('p' :: []) [] true false (fun _ => false)
  exact ⟨h.2.2.2.1 rfl, h2.2.2.2.2 rfl rfl, h.1 e0⟩

/-! ### Claim C5: the identifier checks -/

theorem validateName_e0 (name : List Char) :
    validateName name e0 =
      ⟨(if 64 < name.length then [nameTooLongMsg name.length] else []) ++
        (if nameFormatOk name = false then [nameFormatMsg] else []) ++
        (if hasReserved name = true then [nameReservedMsg] else []) ++
        (if hasAngle name = true then [nameXmlMsg] else []),
        if name ∈ vagueNames then [nameVagueMsg name] else []⟩ := by
  unfold validateName addE addW pushE pushW
  split_ifs <;> simp [e0]

/-- Claim C5: a string matching the identifier grammar (nonempty, at most
64 characters, all in `[a-z0-9-]`) containing neither reserved substring
yields zero Errors; violating the length limit, the character class, or
the reserved-word constraint each puts the corresponding named Error among
the diagnostics; a vague identifier yields only a Warning, never an
Error. -/
theorem c5_identifier_round_trip (name : List Char) :
    ((1 ≤ name.length ∧ name.length ≤ 64 ∧ name.all nameCharOk = true ∧
        hasReserved name = false) →
      (validateName name e0).errors = []) ∧
    (64 < name.length → nameTooLongMsg name.length ∈ (validateName name e0).errors) ∧
    (nameFormatOk name = false → nameFormatMsg ∈ (validateName name e0).errors) ∧
    (hasReserved name = true → nameReservedMsg ∈ (validateName name e0).errors) ∧
    (name ∈ vagueNames →
      (validateName name e0).errors = [] ∧
      (validateName name e0).warnings = [nameVagueMsg name]) := by
  refine ⟨?_, ?_, ?_, ?_, ?_⟩
  · rintro ⟨hlen1, hlen64, hall, hres⟩
    have hfmt : nameFormatOk name = true := by
      have hne : name ≠ [] := by
        intro hnil
        rw [hnil] at hlen1
        simp at hlen1
      simp [nameFormatOk, hne, hall]
    have hang : hasAngle name = false := by
      rw [hasAngle]
      rw [List.any_eq_false]
      intro c hc
      have hcok := (List.all_eq_true.mp hall) c hc
      simp only [nameCharOk, decide_eq_true_eq] at hcok
      simp only [decide_eq_true_eq]
      rintro (hlt | hgt)
      · subst hlt
        rcases hcok with h | h | h
        · exact absurd h (by decide)
        · exact absurd h (by decide)
        · exact absurd h (by decide)
      · subst hgt
        rcases hcok with h | h | h
        · exact absurd h (by decide)
        · exact absurd h (by decide)
        · exact absurd h (by decide)
    rw [validateName_e0]
    simp [hfmt, hres, hang]
    omega
  · intro h
    rw [validateName_e0]
    simp [h]
  · intro h
    rw [validateName_e0]
    simp [h]
  · intro h
    rw [validateName_e0]
    simp [h]
  · intro h
    have hm := h
    simp only [vagueNames, List.mem_cons, List.not_mem_nil, or_false] at hm
    rcases hm with rfl | rfl | rfl | rfl <;> exact ⟨by decide, by decide⟩

theorem c5_identifier_round_trip_witness :
    (validateName "my-skill".data e0).errors = [] ∧
    nameFormatMsg ∈ (validateName "My_Skill".data e0).errors ∧
    nameReservedMsg ∈ (validateName "claude-helper".data e0).errors ∧
    (validateName "helper".data e0).errors = [] ∧
    (validateName "helper".data e0).warnings = [nameVagueMsg "helper".data] := by
  refine ⟨(c5_identifier_round_trip "my-skill".data).1 (by decide),
    (c5_identifier_round_trip "My_Skill".data).2.2.1 (by decide),
    (c5_identifier_round_trip "claude-helper".data).2.2.2.1 (by decide),
    ((c5_identifier_round_trip "helper".data).2.2.2.2 (by decide)).1,
    ((c5_identifier_round_trip "helper".data).2.2.2.2 (by decide)).2⟩

/-! ### Claim C8: component ordering of the diagnostics -/

theorem runDoc_decomp (content : List Char) (fsEx : List Char → Bool) :
    (runDoc content fsEx e0).errors =
        (validateFrontmatter content e0).errors ++
        ((validateFileStructure content e0).errors ++
          ((validateContent content e0).errors ++
            (validateReferences content fsEx e0).errors)) ∧
    (runDoc content fsEx e0).warnings =
        (validateFrontmatter content e0).warnings ++
        ((validateFileStructure content e0).warnings ++
          ((validateContent content e0).warnings ++
            (validateReferences content fsEx e0).warnings)) := by
  unfold runDoc
  rw [appends_decomp (appends_validateReferences content fsEx),
    appends_decomp (appends_validateContent content),
    appends_decomp (appends_validateFileStructure content)]
  simp [e0, List.append_assoc]

/-- Claim C8: within each severity class the diagnostics of a run are the
concatenation, in the fixed component order (header extraction, field
validators, body size check, body content checks, reference resolver), of
each component's own findings, preserving discovery order; the filesystem
enters only through the existence predicate on the scanned link targets,
never through an iteration order. -/
theorem c8_component_order (content : List Char) (fsEx : List Char → Bool) :
    (runDoc content fsEx e0).errors =
        (validateFrontmatter content e0).errors ++
        ((validateFileStructure content e0).errors ++
          ((validateContent content e0).errors ++
            (validateReferences content fsEx e0).errors)) ∧
    (runDoc content fsEx e0).warnings =
        (validateFrontmatter content e0).warnings ++
        ((validateFileStructure content e0).warnings ++
          ((validateContent content e0).warnings ++
            (validateReferences content fsEx e0).warnings)) :=
  runDoc_decomp content fsEx

/-! ### Claim C10: the allowed-tools check -/

theorem validateAllowedTools_char (tools : List Char) (st : VState) :
    validateAllowedTools tools st =
      ⟨st.errors, st.warnings ++
        ((splitToolList tools).filter (fun t => decide (t ∉ validTools))).map unknownToolMsg⟩ := by
  unfold validateAllowedTools
  exact foldl_addW_char (fun t => t ∉ validTools) unknownToolMsg _ st

theorem wordsByAux_ne_nil (p : Char → Bool) :
    ∀ (s acc t : List Char), t ∈ wordsByAux p s acc → t ≠ [] := by
  intro s
  induction s with
  | nil =>
    intro acc t ht
    rw [wordsByAux] at ht
    split at ht
    · simp at ht
    · rename_i hacc
      simp at ht
      subst ht
      simpa using hacc
  | cons c r ih =>
    intro acc t ht
    rw [wordsByAux] at ht
    split at ht
    · split at ht
      · exact ih [] t ht
      · rename_i hacc
        rcases List.mem_cons.mp ht with rfl | hmem
        · simpa using hacc
        · exact ih [] t hmem
    · exact ih (c :: acc) t ht

theorem splitToolList_ne_nil (s : List Char) : ∀ t ∈ splitToolList s, t ≠ [] := by
  intro t ht
  exact wordsByAux_ne_nil toolSep s [] t ht

theorem unknownToolMsg_injective : Function.Injective unknownToolMsg := by
  intro a b hab
  exact List.append_cancel_left hab

theorem count_map_inj {α β : Type} [BEq α] [LawfulBEq α] [BEq β] [LawfulBEq β]
    (f : α → β) (hf : Function.Injective f) (l : List α) (x : α) :
    (l.map f).count (f x) = l.count x := by
  induction l with
  | nil => simp
  | cons a as ih =>
    rw [List.map_cons, List.count_cons, List.count_cons, ih]
    congr 1
    by_cases hax : a = x
    · subst hax
      simp
    · have hfx : ¬ (f a = f x) := fun hc => hax (hf hc)
      simp [hax, hfx]

/-- Claim C10: the allowed-tools tokens are the maximal runs of
non-separator characters; each token is compared by exact, case-sensitive
equality to the fixed nine-element allow-list; every unknown token yields
exactly one Warning (one per occurrence) and no token ever yields an
Error; empty tokens never arise, so consecutive or trailing separators
produce no diagnostic. -/
theorem c10_allowed_tools (tools : List Char) :
    (validateAllowedTools tools e0).errors = [] ∧
    (validateAllowedTools tools e0).warnings =
      ((splitToolList tools).filter (fun t => decide (t ∉ validTools))).map unknownToolMsg ∧
    (∀ t ∈ splitToolList tools, t ≠ []) ∧
    (∀ t, t ∈ splitToolList tools → t ∉ validTools →
      (validateAllowedTools tools e0).warnings.count (unknownToolMsg t) =
        (splitToolList tools).count t ∧
      1 ≤ (validateAllowedTools tools e0).warnings.count (unknownToolMsg t)) := by
  have hchar := validateAllowedTools_char tools e0
  refine ⟨by rw [hchar]; simp [e0], by rw [hchar]; simp [e0], splitToolList_ne_nil tools, ?_⟩
  intro t htmem htunk
  have hw : (validateAllowedTools tools e0).warnings =
      ((splitToolList tools).filter (fun t => decide (t ∉ validTools))).map unknownToolMsg := by
    rw [hchar]
    simp [e0]
  rw [hw]
  rw [count_map_inj unknownToolMsg unknownToolMsg_injective]
  rw [List.count_filter (by simpa using htunk)]
  constructor
  · rfl
  · exact List.count_pos_iff.mpr htmem

theorem c10_allowed_tools_witness :
    (validateAllowedTools "Read, Write,, read".data e0).errors = [] ∧
    (validateAllowedTools "Read, Write,, read".data e0).warnings.count
      (unknownToolMsg "read".data) = 1 := by
  have h := c10_allowed_tools "Read, Write,, read".data
  refine ⟨h.1, ?_⟩
  have hc := (h.2.2.2 "read".data (by decide) (by decide)).1
  rw [hc]
  decide

/-! ### Claim C6: reference resolution -/

theorem refMsg_injective : Function.Injective refMsg := by
  intro a b hab
  exact List.append_cancel_left hab

/-- Claim C6: for every markdown link target `X` found in the document, if
`X` starts with a recognized URL scheme or with the anchor character, the
resolver produces no diagnostic naming `X`; if `X` is kept and the file
exists, no diagnostic; if the file does not exist, exactly one Error
naming `X` per occurrence of the link (so exactly one for a
once-occurring link). -/
theorem c6_reference_resolution (content : List Char) (fsEx : List Char → Bool)
    (X : List Char) (hX : X ∈ scanLinks content) :
    (skipRef X = true →
      (validateReferences content fsEx e0).errors.count (refMsg X) = 0) ∧
    (skipRef X = false → fsEx X = true →
      (validateReferences content fsEx e0).errors.count (refMsg X) = 0) ∧
    (skipRef X = false → fsEx X = false →
      (validateReferences content fsEx e0).errors.count (refMsg X) =
        (scanLinks content).count X ∧
      1 ≤ (validateReferences content fsEx e0).errors.count (refMsg X)) := by
  have hchar := validateReferences_char content fsEx e0
  have herr : (validateReferences content fsEx e0).errors =
      (((scanLinks content).filter (fun t => !(skipRef t))).filter
        (fun r => decide (fsEx r = false))).map refMsg := by
    rw [hchar]
    simp [e0]
  rw [herr]
  rw [show refMsg X = refMsg X from rfl]
  refine ⟨?_, ?_, ?_⟩
  · intro hskip
    rw [count_map_inj refMsg refMsg_injective]
    rw [List.count_eq_zero]
    intro hmem
    have := (List.mem_filter.mp (List.mem_filter.mp hmem).1).2
    rw [hskip] at this
    simp at this
  · intro hskip hex
    rw [count_map_inj refMsg refMsg_injective]
    rw [List.count_eq_zero]
    intro hmem
    have := (List.mem_filter.mp hmem).2
    rw [hex] at this
    simp at this
  · intro hskip hex
    rw [count_map_inj refMsg refMsg_injective]
    rw [List.count_filter (by simp [hex])]
    rw [List.count_filter (by simp [hskip])]
    exact ⟨rfl, List.count_pos_iff.mpr hX⟩

theorem c6_reference_resolution_witness :
    (validateReferences "see [a](m.md) and [b](#sec) and [c](https://x.io) and [d](ok.md)".data
      (fun r => decide (r = "ok.md".data)) e0).errors.count (refMsg "m.md".data) = 1 ∧
    (validateReferences "see [a](m.md) and [b](#sec) and [c](https://x.io) and [d](ok.md)".data
      (fun r => decide (r = "ok.md".data)) e0).errors.count (refMsg "#sec".data) = 0 ∧
    (validateReferences "see [a](m.md) and [b](#sec) and [c](https://x.io) and [d](ok.md)".data
      (fun r => decide (r = "ok.md".data)) e0).errors.count (refMsg "ok.md".data) = 0 := by
  have h1 := c6_reference_resolution
    "see [a](m.md) and [b](#sec) and [c](https://x.io) and [d](ok.md)".data
    (fun r => decide (r = "ok.md".data)) "m.md".data (by decide)
  have h2 := c6_reference_resolution
    "see [a](m.md) and [b](#sec) and [c](https://x.io) and [d](ok.md)".data
    (fun r => decide (r = "ok.md".data)) "#sec".data (by decide)
  have h3 := c6_reference_resolution
    "see [a](m.md) and [b](#sec) and [c](https://x.io) and [d](ok.md)".data
    (fun r => decide (r = "ok.md".data)) "ok.md".data (by decide)
  refine ⟨?_, h2.1 (by decide), h3.2.1 (by decide) (by decide)⟩
  have hc := (h1.2.2 (by decide) (by decide)).1
  rw [hc]
  decide

/-! ### Claim C7: the path-separator check -/

theorem scanBS_iff : ∀ l : List Char, scanBS l = true ↔
    ∃ i a c, l[i]? = some a ∧ l[i+1]? = some '\\' ∧ l[i+2]? = some c ∧
      a ≠ backtick ∧ bsFollower c = true := by
  intro l
  induction l with
  | nil =>
    constructor
    · intro h
      simp [scanBS] at h
    · rintro ⟨i, a, c, h1, -⟩
      simp at h1
  | cons x xs ih =>
    rcases xs with _ | ⟨y, ys⟩
    · constructor
      · intro h
        simp [scanBS] at h
      · rintro ⟨i, a, c, h1, h2, -⟩
        rcases i with _ | j
        · simp at h2
        · simp at h1
    · rcases ys with _ | ⟨z, zs⟩
      · constructor
        · intro h
          simp [scanBS] at h
        · rintro ⟨i, a, c, h1, h2, h3, -⟩
          rcases i with _ | j
          · simp at h3
          · rcases j with _ | k
            · simp at h3
            · simp at h1
      · rw [scanBS]
        rw [Bool.or_eq_true]
        constructor
        · rintro (hc | htail)
          · simp only [Bool.and_eq_true, decide_eq_true_eq] at hc
            exact ⟨0, x, z, rfl, by simp [hc.1.1], by simp, hc.1.2, hc.2⟩
          · obtain ⟨i, a, c, h1, h2, h3, h4, h5⟩ := ih.mp htail
            exact ⟨i + 1, a, c, by simpa using h1, by simpa using h2,
              by simpa using h3, h4, h5⟩
        · rintro ⟨i, a, c, h1, h2, h3, h4, h5⟩
          rcases i with _ | j
          · left
            simp only [List.getElem?_cons_zero, Option.some.injEq] at h1 h2 h3
            simp only [List.getElem?_cons_succ, List.getElem?_cons_zero,
              Option.some.injEq] at h2 h3
            subst h1
            subst h2
            subst h3
            simp [h4, h5]
          · right
            exact ih.mpr ⟨j, a, c, by simpa using h1, by simpa using h2,
              by simpa using h3, h4, h5⟩

/-- The path-separator predicate exactly as the claim states it (a second
reading alongside the code's `scanBS`): some backslash, `not immediately
preceded by a backtick` — which includes a backslash at the very start of
the text — and followed by a character outside the recognized
escape/whitespace class. -/
def claimBackslashHit (l : List Char) : Prop :=
  ∃ i c, l[i]? = some '\\' ∧ l[i+1]? = some c ∧ bsFollower c = true ∧
    (i = 0 ∨ ∃ a, l[i-1]? = some a ∧ a ≠ backtick)

/-- Claim C7 counterexample: in the two-character text with a backslash at
position 0 followed by `x`, the claim's predicate holds (no preceding
backtick, follower not an escape), yet the check emits no diagnostic at
all, because the regex requires a preceding character before the
backslash. -/
theorem c7_counterexample :
    claimBackslashHit ('\\' :: 'x' :: []) ∧
    (validateContent ('\\' :: 'x' :: []) e0).errors = [] ∧
    (validateContent ('\\' :: 'x' :: []) e0).warnings = [] := by
  refine ⟨⟨0, 'x', rfl, rfl, by decide, Or.inl rfl⟩, by decide, by decide⟩

/-- Claim C7 (amended): the check matches a character other than a
backtick, immediately followed by a backslash, immediately followed by a
character that is not a literal `n`, `r`, `t`, not a backslash and not
whitespace — so the backslash must have a preceding character, and a
backslash at the very start of the text never matches.  If such a pattern
exists the check emits exactly one Error whose message carries the fixed
prefix and the snippet starting at the first backslash run; otherwise it
emits no diagnostic.  A text containing `scripts\validate.py` (with a
preceding non-backtick character) yields exactly one such Error. -/
theorem c7_path_separator (content : List Char) :
    (scanBS content = true ↔ ∃ i a c, content[i]? = some a ∧
      content[i+1]? = some '\\' ∧ content[i+2]? = some c ∧
      a ≠ backtick ∧ bsFollower c = true) ∧
    ((validateContent content e0).errors =
      if scanBS content = true then [bsMsg content] else []) ∧
    (∀ m, m ∈ (validateContent content e0).errors →
      ∃ s, m = "Windows-style paths found (use forward slashes): ".data ++ s) := by
  have hchar := validateContent_char content e0
  have herr : (validateContent content e0).errors =
      if scanBS content = true then [bsMsg content] else [] := by
    rw [hchar]
    simp [e0]
  refine ⟨scanBS_iff content, herr, ?_⟩
  intro m hm
  rw [herr] at hm
  by_cases hb : scanBS content = true
  · rw [if_pos hb] at hm
    rw [List.mem_singleton] at hm
    subst hm
    exact ⟨_, rfl⟩
  · rw [if_neg hb] at hm
    simp at hm

theorem c7_path_separator_witness :
    (validateContent "see scripts\\validate.py".data e0).errors =
      [bsMsg "see scripts\\validate.py".data] ∧
    (∃ s, bsMsg "see scripts\\validate.py".data =
      "Windows-style paths found (use forward slashes): ".data ++ s) ∧
    scanBS "see scripts\\validate.py".data = true := by
  have h := c7_path_separator "see scripts\\validate.py".data
  have he : (validateContent "see scripts\\validate.py".data e0).errors =
      [bsMsg "see scripts\\validate.py".data] := by
    rw [h.2.1, if_pos (by decide)]
  refine ⟨he, h.2.2 _ (by rw [he]; exact List.mem_singleton.mpr rfl), by decide⟩

/-! ### Claim C3: the size check -/

theorem splitNL_no_nl_cons (a : List Char) (rest : List Char) (ha : '\n' ∉ a) :
    splitNL (a ++ '\n' :: rest) = a :: splitNL rest := by
  induction a with
  | nil => simp [splitNL]
  | cons c t ih =>
    have hc : c ≠ '\n' := by
      intro h
      exact ha (by simp [h])
    have ht : '\n' ∉ t := fun h => ha (List.mem_cons_of_mem _ h)
    rw [List.cons_append, splitNL, if_neg hc, ih ht]

theorem splitNL_replicate_nl (n : Nat) :
    splitNL (List.replicate n '\n') = List.replicate (n + 1) ([] : List Char) := by
  induction n with
  | zero => simp [splitNL]
  | succ k ih =>
    rw [List.replicate_succ, splitNL, if_pos rfl, ih]
    rw [List.replicate_succ (n := k + 1)]

/-- The body-line count the size check is specified to use, written from
the claim's words (a second reading alongside the code's `bodyLineCount`):
the lines of the document strictly after the closing header delimiter
line, header excluded. -/
def specBodyLineCount (content : List Char) : Nat :=
  match (splitNL content).findIdx? (fun l => l = delimLine) with
  | some i =>
    match ((splitNL content).drop (i + 1)).findIdx? (fun l => l = delimLine) with
    | some j => (((splitNL content).drop (i + 1)).drop (j + 1)).length
    | none => 0
  | none => 0

/-- A document with a two-field header and a 498-line body (every body
line empty): the delimiters and header make four leading lines. -/
def c3doc : List Char :=
  "---".data ++ '\n' :: ("name: a".data ++ '\n' :: ("description: b".data ++ '\n' ::
    ("---".data ++ List.replicate 498 '\n')))

theorem splitNL_c3doc : splitNL c3doc =
    "---".data :: "name: a".data :: "description: b".data :: "---".data ::
      List.replicate 498 ([] : List Char) := by
  unfold c3doc
  rw [splitNL_no_nl_cons _ _ (by decide), splitNL_no_nl_cons _ _ (by decide),
    splitNL_no_nl_cons _ _ (by decide)]
  have h498 : (498 : Nat) = 497 + 1 := by norm_num
  rw [h498, List.replicate_succ, splitNL_no_nl_cons _ _ (by decide),
    splitNL_replicate_nl]

/-- Claim C3 (code bug): on a document whose body (the lines after the
closing delimiter) has 498 lines — not more than the 500-line threshold —
the check still emits the size Warning, because the line count it uses
starts right after the FIRST delimiter line: the source passes `1` to
`Array.prototype.findIndex` as a `thisArg` (not a start index), so the
header lines and the closing delimiter are counted, giving 501. -/
theorem c3_size_check_bug :
    bodyLineCount c3doc = 501 ∧
    (validateFileStructure c3doc e0).warnings = [sizeMsg 501] ∧
    specBodyLineCount c3doc = 498 ∧
    ¬ 500 < 498 := by
  have hfirst : (splitNL c3doc).findIdx? (fun l => l = delimLine) = some 0 := by
    rw [splitNL_c3doc]
    rw [List.findIdx?_cons]
    rw [if_pos (by decide)]
  have hcount : bodyLineCount c3doc = 501 := by
    unfold bodyLineCount
    rw [hfirst, splitNL_c3doc]
    simp only [List.drop_succ_cons, List.drop_zero, List.length_cons,
      List.length_replicate]
  refine ⟨hcount, ?_, ?_, by decide⟩
  · unfold validateFileStructure
    rw [hcount]
    unfold addW
    rw [if_pos (by norm_num)]
    simp [pushW, e0]
  · unfold specBodyLineCount
    rw [hfirst, splitNL_c3doc]
    simp only [List.drop_succ_cons, List.drop_zero]
    have hsecond : (("name: a".data :: "description: b".data :: "---".data ::
        List.replicate 498 ([] : List Char)).findIdx? (fun l => l = delimLine)) = some 2 := by
      rw [List.findIdx?_cons, if_neg (by decide), List.findIdx?_cons, if_neg (by decide),
        List.findIdx?_cons, if_pos (by decide)]
    rw [hsecond]
    simp only [List.drop_succ_cons, List.drop_zero, List.length_replicate]

/-! ### Claim C2: fail-fast behaviour -/

/-- Claim C2 counterexample: a document with no frontmatter delimiter, a
backslash path and a time-anchored phrase.  The missing delimiter is
reported, but contrary to the claim the run does not stop: the body
checks still run and produce a second Error and a Warning. -/
theorem c2_counterexample :
    fmSplit "x a\\a before 2024".data = none ∧
    (runDoc "x a\\a before 2024".data (fun _ => false) e0).errors.length = 2 ∧
    (runDoc "x a\\a before 2024".data (fun _ => false) e0).warnings.length = 1 := by
  refine ⟨by decide, by decide, by decide⟩

/-- Claim C2 (amended): if the package directory or the primary document
is missing, the run stops with exactly that single error and nothing
else.  If both exist but the header delimiter is absent, a single
frontmatter error is recorded and the field validators contribute
nothing, but the body checks still run: the run's errors are the
frontmatter error followed by the content-check and reference errors, and
its warnings are the size and content warnings. -/
theorem c2_fail_fast (skillPath content : List Char) (dirE mdE : Bool)
    (fsEx : List Char → Bool) :
    (dirE = false →
      runValidate skillPath dirE mdE content fsEx = ⟨[dirMissingMsg skillPath], []⟩) ∧
    (dirE = true → mdE = false →
      runValidate skillPath dirE mdE content fsEx = ⟨[mdMissingMsg], []⟩) ∧
    (fmSplit content = none →
      (runDoc content fsEx e0).errors =
        fmMissingMsg :: ((validateContent content e0).errors ++
          (validateReferences content fsEx e0).errors) ∧
      (runDoc content fsEx e0).warnings =
        (validateFileStructure content e0).warnings ++
          (validateContent content e0).warnings) := by
  refine ⟨?_, ?_, ?_⟩
  · intro hd
    subst hd
    exact runValidate_no_dir skillPath content mdE fsEx
  · intro hd hm
    subst hd
    subst hm
    exact runValidate_no_md skillPath content fsEx
  · intro hfm
    have hd := runDoc_decomp content fsEx
    have hfront : validateFrontmatter content e0 = ⟨[fmMissingMsg], []⟩ := by
      unfold validateFrontmatter
      rw [hfm]
      rfl
    have hstructE : (validateFileStructure content e0).errors = [] := by
      rw [validateFileStructure_char content e0]
      rfl
    have hrefW : (validateReferences content fsEx e0).warnings = [] := by
      rw [validateReferences_char content fsEx e0]
      rfl
    constructor
    · rw [hd.1, hfront, hstructE]
      simp
    · rw [hd.2, hfront, hrefW]
      simp

theorem c2_fail_fast_witness :
    runValidate "p".data false true "x".data (fun _ => false) =
      ⟨[dirMissingMsg "p".data], []⟩ ∧
    runValidate "p".data true false "x".data (fun _ => false) = ⟨[mdMissingMsg], []⟩ ∧
    (runDoc "x".data (fun _ => false) e0).errors =
      fmMissingMsg :: ((validateContent "x".data e0).errors ++
        (validateReferences "x".data (fun _ => false) e0).errors) := by
  have h1 := c2_fail_fast "p".data "x".data false true (fun _ => false)
  have h2 := c2_fail_fast "p".data "x".data true false (fun _ => false)
  have h3 := c2_fail_fast "p".data "x".data true true (fun _ => false)
  exact ⟨h1.1 rfl, h2.2.1 rfl rfl, (h3.2.2 (by decide)).1⟩

/-! ### Claim C4: header extraction -/

theorem findSeq_some {pat : List Char} :
    ∀ {l : List Char} {i : Nat}, findSeq pat l = some i →
      pat.isPrefixOf (l.drop i) = true ∧
      ∀ j < i, pat.isPrefixOf (l.drop j) = false := by
  intro l
  induction l with
  | nil =>
    intro i h
    simp [findSeq] at h
  | cons c r ih =>
    intro i h
    rw [findSeq] at h
    split at h
    · rename_i hpref
      have hi : i = 0 := by simpa using h.symm
      subst hi
      exact ⟨by simpa using hpref, by omega⟩
    · rename_i hpref
      rcases hfs : findSeq pat r with _ | i'
      · rw [hfs] at h
        simp at h
      · rw [hfs] at h
        simp only [Option.map_some', Option.some.injEq] at h
        subst h
        obtain ⟨h1, h2⟩ := ih hfs
        refine ⟨by simpa using h1, ?_⟩
        intro j hj
        rcases j with _ | k
        · simpa using Bool.eq_false_iff.mpr hpref
        · have hk : k < i' := by omega
          simpa using h2 k hk

theorem findSeq_of_prefix {pat : List Char} (hpat : pat ≠ []) :
    ∀ {l : List Char} {j : Nat}, pat.isPrefixOf (l.drop j) = true →
      ∃ i, findSeq pat l = some i ∧ i ≤ j := by
  intro l
  induction l with
  | nil =>
    intro j h
    rw [List.drop_nil] at h
    rw [List.isPrefixOf_iff_prefix] at h
    rw [List.prefix_nil] at h
    exact absurd h hpat
  | cons c r ih =>
    intro j h
    by_cases hp : pat.isPrefixOf (c :: r) = true
    · exact ⟨0, by rw [findSeq]; rw [if_pos hp], Nat.zero_le j⟩
    · rcases j with _ | k
      · rw [List.drop_zero] at h
        exact absurd h hp
      · rw [List.drop_succ_cons] at h
        obtain ⟨i', hi', hle⟩ := ih h
        refine ⟨i' + 1, ?_, by omega⟩
        rw [findSeq, if_neg (by simpa using hp), hi']
        rfl

/-- Claim C4 counterexample: the document `x`-newline-`---`-newline-`a`-
newline-`---`-newline-`b` contains two lines equal to the delimiter
marker, yet extraction fails (the regex is anchored at the very start of
the document) and the single missing-frontmatter error is reported. -/
theorem c4_counterexample :
    ((splitNL "x\n---\na\n---\nb".data).count delimLine) = 2 ∧
    fmSplit "x\n---\na\n---\nb".data = none ∧
    validateFrontmatter "x\n---\na\n---\nb".data e0 = ⟨[fmMissingMsg], []⟩ := by
  refine ⟨by decide, by decide, ?_⟩
  unfold validateFrontmatter
  rw [show fmSplit "x\n---\na\n---\nb".data = none from by decide]
  rfl

/-- Claim C4 (amended): extraction succeeds exactly when the document
starts with the delimiter line (the regex is anchored) and the remainder
contains a newline immediately followed by the three-hyphen marker — the
closing marker need not be a whole line.  On success the captured header
is the shortest prefix of the remainder ending at such an occurrence, so
the document decomposes as opening delimiter ++ header ++ closing marker
++ rest with the header of minimal length; on failure the single
missing-frontmatter error is reported. -/
theorem c4_header_extraction (content : List Char) :
    ((fmSplit content).isSome ↔
      ∃ h r, content = delimOpen ++ (h ++ (delimClose ++ r))) ∧
    (∀ hdr, fmSplit content = some hdr →
      (∃ r, content = delimOpen ++ (hdr ++ (delimClose ++ r))) ∧
      (∀ h' r', content = delimOpen ++ (h' ++ (delimClose ++ r')) →
        hdr.length ≤ h'.length)) ∧
    (fmSplit content = none → validateFrontmatter content e0 = ⟨[fmMissingMsg], []⟩) := by
  have hde : ∀ hdr, fmSplit content = some hdr →
      (∃ r, content = delimOpen ++ (hdr ++ (delimClose ++ r))) ∧
      (∀ h' r', content = delimOpen ++ (h' ++ (delimClose ++ r')) →
        hdr.length ≤ h'.length) := by
    intro hdr hsome
    unfold fmSplit at hsome
    split at hsome
    · rename_i hopen
      rcases hfs : findSeq delimClose (content.drop 4) with _ | i
      · rw [hfs] at hsome
        simp at hsome
      · rw [hfs] at hsome
        simp only [Option.map_some', Option.some.injEq] at hsome
        obtain ⟨hpref1, hmin⟩ := findSeq_some hfs
        rw [List.isPrefixOf_iff_prefix] at hpref1
        obtain ⟨u, hu⟩ := hpref1
        rw [List.isPrefixOf_iff_prefix] at hopen
        obtain ⟨t, ht⟩ := hopen
        have htdrop : content.drop 4 = t := by
          rw [← ht]
          exact List.drop_left' (by decide)
        have hidef : hdr = (content.drop 4).take i := hsome.symm
        have hit : i ≤ t.length := by
          have hne : (t.drop i) ≠ [] := by
            intro hnil
            rw [htdrop, hnil] at hu
            simp [delimClose] at hu
          by_contra hgt
          push_neg at hgt
          rw [List.drop_of_length_le (Nat.le_of_lt hgt)] at hne
          exact hne rfl
        have hlen : hdr.length = i := by
          rw [hidef, htdrop]
          rw [List.length_take]
          omega
        constructor
        · refine ⟨u, ?_⟩
          rw [← ht]
          congr 1
          rw [hidef, htdrop]
          rw [htdrop] at hu
          rw [hu]
          rw [List.take_append_drop]
        · intro h' r' hdec
          have hdrop4 : content.drop 4 = h' ++ (delimClose ++ r') := by
            rw [hdec]
            exact List.drop_left' (by decide)
          have hpref' : delimClose.isPrefixOf ((content.drop 4).drop h'.length) = true := by
            rw [hdrop4]
            rw [List.drop_left]
            rw [List.isPrefixOf_iff_prefix]
            exact ⟨r', rfl⟩
          by_contra hlt
          push_neg at hlt
          rw [hlen] at hlt
          have := hmin h'.length hlt
          rw [this] at hpref'
          simp at hpref'
    · simp at hsome
  refine ⟨?_, hde, ?_⟩
  · constructor
    · intro hsome
      rw [Option.isSome_iff_exists] at hsome
      obtain ⟨hdr, hhdr⟩ := hsome
      obtain ⟨⟨r, hr⟩, -⟩ := hde hdr hhdr
      exact ⟨hdr, r, hr⟩
    · rintro ⟨h, r, hr⟩
      unfold fmSplit
      have hopen : delimOpen.isPrefixOf content = true := by
        rw [List.isPrefixOf_iff_prefix]
        exact ⟨h ++ (delimClose ++ r), by rw [hr]⟩
      rw [if_pos hopen]
      have hdrop4 : content.drop 4 = h ++ (delimClose ++ r) := by
        rw [hr]
        exact List.drop_left' (by decide)
      have hpref : delimClose.isPrefixOf ((content.drop 4).drop h.length) = true := by
        rw [hdrop4, List.drop_left, List.isPrefixOf_iff_prefix]
        exact ⟨r, rfl⟩
      obtain ⟨i, hi, -⟩ := findSeq_of_prefix (by decide) hpref
      rw [hi]
      rfl
  · intro hnone
    unfold validateFrontmatter
    rw [hnone]
    rfl

theorem c4_header_extraction_witness :
    (∃ r, "---\na\n---b".data = delimOpen ++ ("a".data ++ (delimClose ++ r))) ∧
    validateFrontmatter "x".data e0 = ⟨[fmMissingMsg], []⟩ := by
  have h1 := c4_header_extraction "---\na\n---b".data
  have h2 := c4_header_extraction "x".data
  exact ⟨((h1.2.1 "a".data (by decide)).1), h2.2.2 (by decide)⟩

/-! ### Claim C9: scope of the body checks and time-warning multiplicity -/

theorem ciIsPref_true_length : ∀ {p t : List Char}, ciIsPref p t = true →
    p.length ≤ t.length := by
  intro p
  induction p with
  | nil =>
    intro t _
    simp
  | cons x xs ih =>
    intro t h
    cases t with
    | nil => simp [ciIsPref] at h
    | cons c cs =>
      rw [ciIsPref, Bool.and_eq_true] at h
      have := ih h.2
      simp only [List.length_cons]
      omega

theorem ciIsPref_append : ∀ {p t : List Char} (y : List Char),
    ciIsPref p t = true → ciIsPref p (t ++ y) = true := by
  intro p
  induction p with
  | nil =>
    intro t y _
    rfl
  | cons x xs ih =>
    intro t y h
    cases t with
    | nil => simp [ciIsPref] at h
    | cons c cs =>
      rw [ciIsPref, Bool.and_eq_true] at h
      rw [List.cons_append, ciIsPref, Bool.and_eq_true]
      exact ⟨h.1, ih y h.2⟩

theorem fourDigits_append {x : List Char} (y : List Char) (h : fourDigits x = true) :
    fourDigits (x ++ y) = true := by
  match x with
  | a :: b :: c :: d :: r => simpa [fourDigits] using h
  | [] => simp [fourDigits] at h
  | [a] => simp [fourDigits] at h
  | [a, b] => simp [fourDigits] at h
  | [a, b, c] => simp [fourDigits] at h

theorem timeHitAt_append {p t : List Char} (y : List Char) (h : timeHitAt p t = true) :
    timeHitAt p (t ++ y) = true := by
  rw [timeHitAt, Bool.and_eq_true] at h
  obtain ⟨h1, h2⟩ := h
  rw [timeHitAt, Bool.and_eq_true]
  refine ⟨ciIsPref_append y h1, ?_⟩
  rw [List.drop_append_of_le_length (ciIsPref_true_length h1)]
  exact fourDigits_append y h2

theorem scanTP_append_right (a : List Char) {p b : List Char} (h : scanTP p b = true) :
    scanTP p (a ++ b) = true := by
  induction a with
  | nil => simpa using h
  | cons c r ih =>
    rw [List.cons_append, scanTP, Bool.or_eq_true]
    right
    exact ih

theorem scanTP_append_left {p a : List Char} (y : List Char) (h : scanTP p a = true) :
    scanTP p (a ++ y) = true := by
  induction a with
  | nil => simp [scanTP] at h
  | cons c r ih =>
    rw [scanTP, Bool.or_eq_true] at h
    rw [List.cons_append, scanTP, Bool.or_eq_true]
    rcases h with h | h
    · left
      have := timeHitAt_append y h
      simpa using this
    · right
      exact ih h

theorem scanBS_cons_of {x : Char} {xs : List Char} (h : scanBS xs = true) :
    scanBS (x :: xs) = true := by
  match xs with
  | [] => simp [scanBS] at h
  | [y] => simp [scanBS] at h
  | y :: z :: r =>
    rw [scanBS, Bool.or_eq_true]
    right
    exact h

theorem scanBS_append_left (b : List Char) :
    ∀ {a : List Char}, scanBS a = true → scanBS (a ++ b) = true := by
  intro a
  induction a with
  | nil =>
    intro h
    simp [scanBS] at h
  | cons x xs ih =>
    intro h
    rcases xs with _ | ⟨y, ys⟩
    · simp [scanBS] at h
    · rcases ys with _ | ⟨z, zs⟩
      · simp [scanBS] at h
      · rw [scanBS, Bool.or_eq_true] at h
        rcases h with h | h
        · rw [List.cons_append, List.cons_append, List.cons_append, scanBS,
            Bool.or_eq_true]
          left
          exact h
        · rw [List.cons_append]
          exact scanBS_cons_of (ih h)

theorem scanBS_append_right (a : List Char) {b : List Char} (h : scanBS b = true) :
    scanBS (a ++ b) = true := by
  induction a with
  | nil => simpa using h
  | cons x xs ih =>
    rw [List.cons_append]
    exact scanBS_cons_of ih

theorem tryLink_ne_bracket {c : Char} (r : List Char) (hc : c ≠ '[') :
    tryLink (c :: r) = none := by
  rw [tryLink.eq_def]
  split
  · rename_i rest heq
    exact absurd (List.cons_eq_cons.mp heq).1 hc
  · rfl

theorem scanLinks_no_bracket_append : ∀ (pre s : List Char), '[' ∉ pre →
    scanLinks (pre ++ s) = scanLinks s := by
  intro pre
  induction pre with
  | nil =>
    intro s _
    simp
  | cons c r ih =>
    intro s hpre
    have hc : c ≠ '[' := by
      intro h
      exact hpre (by simp [h])
    rw [List.cons_append, scanLinks_cons_none (tryLink_ne_bracket _ hc)]
    exact ih s (fun h => hpre (List.mem_cons_of_mem _ h))

theorem scanLinks_link_head (X rest : List Char) (hX : X ≠ []) (hpar : ')' ∉ X) :
    scanLinks ('[' :: 'r' :: ']' :: '(' :: (X ++ ')' :: rest)) = X :: scanLinks rest := by
  have hdropX : (X ++ ')' :: rest).dropWhile (fun x => decide (x ≠ ')')) = ')' :: rest := by
    rw [List.dropWhile_append_of_pos (by
      intro a ha
      simp only [decide_eq_true_eq]
      intro hae
      exact hpar (hae ▸ ha))]
    rw [List.dropWhile_cons_of_neg (by simp)]
  have htakeX : (X ++ ')' :: rest).takeWhile (fun x => decide (x ≠ ')')) = X := by
    rw [List.takeWhile_append_of_pos (by
      intro a ha
      simp only [decide_eq_true_eq]
      intro hae
      exact hpar (hae ▸ ha))]
    rw [List.takeWhile_cons_of_neg (by simp)]
    simp
  apply scanLinks_cons_some
  rw [tryLink.eq_def]
  have h1 : List.dropWhile (fun x => decide (x ≠ ']'))
      ('r' :: ']' :: '(' :: (X ++ ')' :: rest)) = ']' :: '(' :: (X ++ ')' :: rest) := by
    rw [List.dropWhile_cons_of_pos (by decide), List.dropWhile_cons_of_neg (by decide)]
  have h2 : List.takeWhile (fun x => decide (x ≠ ']'))
      ('r' :: ']' :: '(' :: (X ++ ')' :: rest)) = ['r'] := by
    rw [List.takeWhile_cons_of_pos (by decide), List.takeWhile_cons_of_neg (by decide)]
  simp only [h1, h2, hdropX, htakeX]
  rw [if_neg (by
    rintro (h1 | h2)
    · exact absurd h1 (by simp)
    · exact hX h2)]

/-- The whole document around a header block: opening delimiter line,
header, closing delimiter line, body. -/
def mkDoc (hdr body : List Char) : List Char :=
  delimOpen ++ (hdr ++ (delimClose ++ ('\n' :: body)))

/-- Claim C9: the time-anchoring check emits at most one Warning per fixed
pattern — its warnings are one per matching pattern, at most four in total,
regardless of how often a pattern matches — and the time-anchoring check,
the path-separator check and the reference scan all operate on the entire
document text: a time phrase, a backslash path, or a broken link located
inside the header block still produces its diagnostic. -/
theorem c9_content_scope (hdr body : List Char) (fsEx : List Char → Bool) :
    ((validateContent (mkDoc hdr body) e0).warnings =
        (timePats.filter (fun p => scanTP p (mkDoc hdr body))).map (fun _ => timeMsg) ∧
      (validateContent (mkDoc hdr body) e0).warnings.length ≤ 4) ∧
    (∀ p ∈ timePats, scanTP p hdr = true →
      timeMsg ∈ (runDoc (mkDoc hdr body) fsEx e0).warnings) ∧
    (scanBS hdr = true →
      bsMsg (mkDoc hdr body) ∈ (runDoc (mkDoc hdr body) fsEx e0).errors) ∧
    (∀ h1 X h2, hdr = h1 ++ ('[' :: 'r' :: ']' :: '(' :: (X ++ ')' :: h2)) →
      '[' ∉ h1 → X ≠ [] → ')' ∉ X → skipRef X = false → fsEx X = false →
      refMsg X ∈ (runDoc (mkDoc hdr body) fsEx e0).errors) := by
  have hcw : (validateContent (mkDoc hdr body) e0).warnings =
      (timePats.filter (fun p => scanTP p (mkDoc hdr body))).map (fun _ => timeMsg) := by
    rw [validateContent_char (mkDoc hdr body) e0]
    simp [e0]
  have hce : (validateContent (mkDoc hdr body) e0).errors =
      if scanBS (mkDoc hdr body) = true then [bsMsg (mkDoc hdr body)] else [] := by
    rw [validateContent_char (mkDoc hdr body) e0]
    simp [e0]
  have hdw := (runDoc_decomp (mkDoc hdr body) fsEx).2
  have hde := (runDoc_decomp (mkDoc hdr body) fsEx).1
  refine ⟨⟨hcw, ?_⟩, ?_, ?_, ?_⟩
  · rw [hcw, List.length_map]
    exact List.length_filter_le _ timePats
  · intro p hp hscan
    have hscanDoc : scanTP p (mkDoc hdr body) = true := by
      unfold mkDoc
      exact scanTP_append_right delimOpen (scanTP_append_left _ hscan)
    have hmem : timeMsg ∈ (validateContent (mkDoc hdr body) e0).warnings := by
      rw [hcw]
      exact List.mem_map.mpr ⟨p, List.mem_filter.mpr ⟨hp, by simp [hscanDoc]⟩, rfl⟩
    rw [hdw]
    exact List.mem_append.mpr (Or.inr (List.mem_append.mpr (Or.inr
      (List.mem_append.mpr (Or.inl hmem)))))
  · intro hbs
    have hbsDoc : scanBS (mkDoc hdr body) = true := by
      unfold mkDoc
      exact scanBS_append_right delimOpen (scanBS_append_left _ hbs)
    have hmem : bsMsg (mkDoc hdr body) ∈ (validateContent (mkDoc hdr body) e0).errors := by
      rw [hce, if_pos hbsDoc]
      exact List.mem_singleton.mpr rfl
    rw [hde]
    exact List.mem_append.mpr (Or.inr (List.mem_append.mpr (Or.inr
      (List.mem_append.mpr (Or.inl hmem)))))
  · intro h1 X h2 hhdr hbr hX hpar hskip hfs
    have hdoc : mkDoc hdr body =
        (delimOpen ++ h1) ++
          ('[' :: 'r' :: ']' :: '(' :: (X ++ ')' ::
            (h2 ++ (delimClose ++ ('\n' :: body))))) := by
      unfold mkDoc
      rw [hhdr]
      simp [List.append_assoc, List.cons_append]
    have hbr2 : '[' ∉ delimOpen ++ h1 := by
      intro hmem
      rcases List.mem_append.mp hmem with hmem | hmem
      · simp [delimOpen] at hmem
      · exact hbr hmem
    have hscan : X ∈ scanLinks (mkDoc hdr body) := by
      rw [hdoc, scanLinks_no_bracket_append _ _ hbr2,
        scanLinks_link_head X _ hX hpar]
      exact List.mem_cons_self X _
    have hmem : refMsg X ∈ (validateReferences (mkDoc hdr body) fsEx e0).errors := by
      rw [validateReferences_char (mkDoc hdr body) fsEx e0]
      simp only [e0, List.nil_append]
      exact List.mem_map.mpr ⟨X,
        List.mem_filter.mpr ⟨List.mem_filter.mpr ⟨hscan, by simp [hskip]⟩, by simp [hfs]⟩,
        rfl⟩
    rw [hde]
    exact List.mem_append.mpr (Or.inr (List.mem_append.mpr (Or.inr
      (List.mem_append.mpr (Or.inr hmem)))))

theorem c9_content_scope_witness :
    timeMsg ∈ (runDoc (mkDoc "name: a [r](m.md) s\\v.py before 2024".data "body".data)
      (fun _ => false) e0).warnings ∧
    bsMsg (mkDoc "name: a [r](m.md) s\\v.py before 2024".data "body".data) ∈
      (runDoc (mkDoc "name: a [r](m.md) s\\v.py before 2024".data "body".data)
        (fun _ => false) e0).errors ∧
    refMsg "m.md".data ∈
      (runDoc (mkDoc "name: a [r](m.md) s\\v.py before 2024".data "body".data)
        (fun _ => false) e0).errors := by
  have h := c9_content_scope "name: a [r](m.md) s\\v.py before 2024".data "body".data
    (fun _ => false)
  refine ⟨h.2.1 "before ".data (by decide) (by decide), h.2.2.1 (by decide), ?_⟩
  exact h.2.2.2 "name: a ".data "m.md".data " s\\v.py before 2024".data
    (by decide) (by decide) (by decide) (by decide) (by decide) rfl

end SkillValidator
